import Mathlib

/-
Verification of src/scripts/pr-utils.js.

The JavaScript source is shallowly embedded: every function under scrutiny is
translated into a Lean definition over explicit environments.  Remote API calls
are modelled by an environment record whose fields give the (possibly failing)
result of each endpoint; a call trace is threaded so that "performs no write
calls" is a provable statement.  JavaScript strings are modelled by Lean
strings, with the JS string primitives (first-occurrence replace, split,
startsWith, parseInt, regex membership tests) reimplemented below on character
lists exactly as JavaScript behaves on the inputs the program produces.
-/

/- ---------------------------------------------------------------- -/
/- JavaScript string primitives -/
/- ---------------------------------------------------------------- -/

/-- `listStarts pat l` holds when `pat` is an initial run of `l`
(the char-list form of JS `String.startsWith`). -/
def listStarts : List Char → List Char → Bool
  | [], _ => true
  | _ :: _, [] => false
  | p :: ps, c :: cs => p == c && listStarts ps cs

/-- Char-list core of JS `s.replace(pat, rep)` with a string pattern:
replace the first occurrence of `pat` only; if `pat` never occurs the
list is returned unchanged. -/
def replFirstAux (pat rep : List Char) : List Char → List Char
  | [] => if listStarts pat [] then rep else []
  | c :: cs =>
    if listStarts pat (c :: cs) then rep ++ (c :: cs).drop pat.length
    else c :: replFirstAux pat rep cs

/-- JS `s.replace(pat, rep)` with a plain-string pattern (first occurrence only). -/
def jsReplace (s pat rep : String) : String :=
  ⟨replFirstAux pat.data rep.data s.data⟩

/-- JS `s.startsWith(pat)`. -/
def jsStartsWith (s pat : String) : Bool := listStarts pat.data s.data

/-- `occursIn pat l`: `pat` occurs as a contiguous run somewhere in `l`. -/
def occursIn (pat : List Char) : List Char → Bool
  | [] => listStarts pat []
  | c :: cs => listStarts pat (c :: cs) || occursIn pat cs

/-- JS `s.includes(pat)` / case-sensitive regex literal test. -/
def containsSub (s pat : String) : Bool := occursIn pat.data s.data

/-- JS case-insensitive regex literal test, e.g. `/up to date/i.test(s)`. -/
def containsCI (s pat : String) : Bool :=
  occursIn (pat.data.map Char.toLower) (s.data.map Char.toLower)

/-- JS `String.split` on a single-character class: split at every char
satisfying `p`.  Like JS, the result is never empty and keeps empty pieces. -/
def splitOnP (p : Char → Bool) : List Char → List (List Char)
  | [] => [[]]
  | c :: cs =>
    if p c then [] :: splitOnP p cs
    else
      match splitOnP p cs with
      | [] => [[c]]
      | h :: t => (c :: h) :: t

/-- JS `s.split('\n')` as Lean strings. -/
def splitLines (s : String) : List String :=
  (splitOnP (fun c => c == '\n') s.data).map (fun l => String.mk l)

/-- JS `parseInt(s, 10)` restricted to the digit outputs git produces:
parse the leading run of decimal digits, `none` modelling `NaN`. -/
def jsParseInt (s : String) : Option Nat :=
  let ds := s.data.takeWhile (fun c => c.isDigit)
  if ds.isEmpty then none
  else some (ds.foldl (fun n c => n * 10 + (c.toNat - 48)) 0)

/- ---------------------------------------------------------------- -/
/- deriveRepoNameFromUrl (src/scripts/pr-utils.js lines 839-857) -/
/- ---------------------------------------------------------------- -/

/-- Embeds `deriveRepoNameFromUrl`.  `none` models the JavaScript value
`undefined` (indexing past the end of the split array); the relative-path
and fallback branches always produce a string. -/
def deriveRepoNameFromUrl (url : String) : Option String :=
  if jsStartsWith url "https://github.com/" then
    ((splitOnP (fun c => c == '/')
        (jsReplace (jsReplace url "https://github.com/" "") ".git" "").data).map
      (fun l => String.mk l))[1]?
  else if jsStartsWith url "git@github.com:" then
    ((splitOnP (fun c => c == '/')
        (jsReplace (jsReplace url "git@github.com:" "") ".git" "").data).map
      (fun l => String.mk l))[1]?
  else if jsStartsWith url "../" then
    some (jsReplace (jsReplace url "../" "") ".git" "")
  else
    some (jsReplace
      (String.mk ((splitOnP (fun c => c == '/' || c == ':') url.data).getLastD []))
      ".git" "")

/- ---------------------------------------------------------------- -/
/- Data model of the hosting-API values the functions read -/
/- ---------------------------------------------------------------- -/

structure Author where
  name : String
  email : String
  date : String
deriving DecidableEq, Inhabited

/-- Snapshot returned by `pulls.get`. -/
structure PR where
  title : String
  body : Option String
  head_ref : String
  base_ref : String
  mergeable : Option Bool
deriving DecidableEq, Inhabited

/-- One item of `pulls.listCommits` (its `.sha` and `.commit` fields flattened). -/
structure CommitRef where
  sha : String
  message : String
  author : Author
  committer : Author
deriving DecidableEq, Inhabited

/-- Result of `git.getCommit`. -/
structure GitCommit where
  parents : List String
  tree : String
  author : Author
  message : String
deriving DecidableEq, Inhabited

/-- One item of a commit's / PR's changed-file list. -/
structure ChangedFile where
  filename : String
  status : String
deriving DecidableEq, Inhabited

/-- Result of `repos.getCommit` (only the `.files` field is read). -/
structure CommitDetail where
  files : List ChangedFile
deriving DecidableEq, Inhabited

/-- Result of `repos.getContent`: `isFile := false` models a directory
listing or a non-file type; `content` is the decoded utf-8 content. -/
structure ContentResult where
  isFile : Bool
  content : String
deriving DecidableEq, Inhabited

/-- Result of `repos.compareCommits` (fields the source reads). -/
structure CompareResult where
  status : String
  merge_base_sha : String
  files : List String
deriving DecidableEq, Inhabited

/-- A tree-update entry; `sha := none` models `sha: null` (a deletion). -/
structure TreeEntry where
  path : String
  sha : Option String
  mode : String
deriving DecidableEq, Inhabited

/-- Payload of `git.createCommit`. -/
structure CommitOptions where
  message : String
  tree : String
  parents : List String
  author : Option Author
  committer : Option Author
deriving DecidableEq, Inhabited

/-- One review item of `pulls.listReviews` (`.user.login` flattened). -/
structure Review where
  user : String
  state : String
deriving DecidableEq, Inhabited

/- ---------------------------------------------------------------- -/
/- API environment, call trace and effect monad -/
/- ---------------------------------------------------------------- -/

/-- The API calls the embedded functions can issue, recorded in a trace. -/
inductive ApiCall where
  | pullsGet
  | pullsListCommits
  | pullsListFiles
  | pullsListReviews
  | gitGetCommit (sha : String)
  | reposGetCommit (ref : String)
  | gitGetRef (ref : String)
  | reposGetContent (path : String) (ref : String)
  | reposCompareCommits (base : String) (head : String)
  | reposListCommits (branch : String)
  | gitGetTree (sha : String)
  | gitCreateBlob
  | gitCreateTree
  | gitCreateCommit
  | gitCreateRef (ref : String)
  | gitUpdateRef (ref : String) (force : Bool)
  | gitDeleteRef (ref : String)
deriving DecidableEq, Repr

/-- Write calls mutate hosting state (object/ref creation, ref updates,
ref deletion); everything else is a read. -/
def isWriteCall : ApiCall → Bool
  | .gitCreateBlob => true
  | .gitCreateTree => true
  | .gitCreateCommit => true
  | .gitCreateRef _ => true
  | .gitUpdateRef _ _ => true
  | .gitDeleteRef _ => true
  | _ => false

/-- Environment fixing the outcome of every hosting-API endpoint.
`Except.error` models a rejected promise (a thrown error at the call site). -/
structure ApiEnv where
  now : Nat
  pulls_get : Except String PR
  pulls_listCommits : Except String (List CommitRef)
  pulls_listFiles : Except String (List ChangedFile)
  pulls_listReviews : Except String (List Review)
  git_getCommit : String → Except String GitCommit
  repos_getCommit : String → Except String CommitDetail
  git_getRef : String → Except String String
  repos_getContent : String → String → Except String ContentResult
  repos_compareCommits : String → String → Except String CompareResult
  repos_listCommits : String → Except String (List String)
  git_getTree : String → Except String Unit
  git_createBlob : String → Except String String
  git_createTree : String → List TreeEntry → Except String String
  git_createCommit : CommitOptions → Except String String
  git_createRef : String → String → Except String Unit
  git_updateRef : String → String → Bool → Except String Unit
  git_deleteRef : String → Except String Unit

/-- Effect monad of the embedded async functions: thread the call trace,
short-circuit on a thrown error. -/
def ApiM (α : Type) : Type := List ApiCall → Except String α × List ApiCall

instance : Monad ApiM where
  pure a := fun t => (Except.ok a, t)
  bind x f := fun t =>
    match x t with
    | (Except.ok a, t') => f a t'
    | (Except.error e, t') => (Except.error e, t')

/-- Issue one API call: record it and surface the environment's answer. -/
def apiCall {α : Type} (c : ApiCall) (r : Except String α) : ApiM α :=
  fun t => (r, t ++ [c])

/-- JS `throw`. -/
def throwM {α : Type} (e : String) : ApiM α := fun t => (Except.error e, t)

/-- JS `try { x } catch (e) { h e }`. -/
def tryCatchM {α : Type} (x : ApiM α) (h : String → ApiM α) : ApiM α := fun t =>
  match x t with
  | (Except.ok a, t') => (Except.ok a, t')
  | (Except.error e, t') => h e t'

/-- Run with an empty trace. -/
def runM {α : Type} (x : ApiM α) : Except String α × List ApiCall := x []

/- ---------------------------------------------------------------- -/
/- Commit Rewriter: apiSquashPR (lines 10-58), apiRebasePR (69-199),
   apiCherryPickPR (210-319) -/
/- ---------------------------------------------------------------- -/

/-- Result shape of `apiSquashPR`. -/
structure SquashResult where
  squashNeeded : Bool
  result : String
  sha : Option String
deriving DecidableEq, Inhabited

/-- Result shape of `apiRebasePR`. -/
structure RebaseResult where
  rebaseNeeded : Bool
  result : String
  sha : Option String
  error : Option String
deriving DecidableEq, Inhabited

/-- Result shape of `apiCherryPickPR`. -/
structure CherryResult where
  cherryPickNeeded : Bool
  result : String
  sha : Option String
  error : Option String
deriving DecidableEq, Inhabited

/-- The `try` block of `apiSquashPR` (lines 11-53).  Indexing an empty
`parents` array in JS throws a TypeError, modelled by `throwM`. -/
def apiSquashBody (env : ApiEnv) : ApiM SquashResult := do
  let pr ← apiCall .pullsGet env.pulls_get
  let commits ← apiCall .pullsListCommits env.pulls_listCommits
  if commits.length ≤ 1 then
    pure ⟨false, "skipped", none⟩
  else
    let firstCommit := commits.headD default
    let headCommit := commits.getLastD default
    let headCommitData ← apiCall (.gitGetCommit headCommit.sha) (env.git_getCommit headCommit.sha)
    let firstCommitData ← apiCall (.gitGetCommit firstCommit.sha) (env.git_getCommit firstCommit.sha)
    match firstCommitData.parents with
    | [] => throwM "TypeError: cannot read properties of undefined"
    | parentSha :: _ =>
      let squashMessage := pr.title ++ "\n\n" ++ pr.body.getD "" ++ "\n"
      let author := headCommitData.author
      let newSha ← apiCall .gitCreateCommit
        (env.git_createCommit ⟨squashMessage, headCommitData.tree, [parentSha], some author, none⟩)
      let _ ← apiCall (.gitUpdateRef ("heads/" ++ pr.head_ref) true)
        (env.git_updateRef ("heads/" ++ pr.head_ref) newSha true)
      pure ⟨true, "success", some newSha⟩

/-- Embeds `apiSquashPR`: the catch block (lines 54-57) logs and
**re-throws** the same error. -/
def apiSquashPR (env : ApiEnv) : ApiM SquashResult :=
  tryCatchM (apiSquashBody env) (fun e => throwM e)

/-- Loop body of the tree-diff rebase (lines 99-163): fetch both sides of a
changed file, keep it in the update list only when it truly differs from the
base branch.  The base-side fetch is wrapped in its own try/catch
(`baseExists := false` on error); a failing PR-side fetch throws. -/
def rebaseFileStep (env : ApiEnv) (prCommitSha baseBranch : String)
    (acc : List TreeEntry) (file : ChangedFile) : ApiM (List TreeEntry) := do
  let filePath := file.filename
  let prContent ←
    if file.status ≠ "removed" then do
      let prFile ← apiCall (.reposGetContent filePath prCommitSha)
        (env.repos_getContent filePath prCommitSha)
      pure (if prFile.isFile then prFile.content else "")
    else
      pure ""
  let br ← tryCatchM
    (do
      let baseFile ← apiCall (.reposGetContent filePath baseBranch)
        (env.repos_getContent filePath baseBranch)
      pure (true, if baseFile.isFile then baseFile.content else ""))
    (fun _ => pure (false, ""))
  let baseExists := br.1
  let baseContent := br.2
  let isDifferent := (file.status == "removed") || !baseExists || (prContent != baseContent)
  if !isDifferent then
    pure acc
  else if file.status == "removed" then
    pure (acc ++ [⟨filePath, none, "100644"⟩])
  else do
    let blobSha ← apiCall .gitCreateBlob (env.git_createBlob prContent)
    pure (acc ++ [⟨filePath, some blobSha, "100644"⟩])

/-- The `try` block of `apiRebasePR` (lines 70-194, the tree-diff variant). -/
def apiRebaseBody (env : ApiEnv) : ApiM RebaseResult := do
  let pr ← apiCall .pullsGet env.pulls_get
  let prBranch := pr.head_ref
  let baseBranch := pr.base_ref
  let commits ← apiCall .pullsListCommits env.pulls_listCommits
  if commits.length ≠ 1 then
    throwM ("PR must contain exactly 1 commit. Found " ++ toString commits.length ++ ".")
  else
    let prCommitSha := (commits.headD default).sha
    let prCommitDetail ← apiCall (.reposGetCommit prCommitSha) (env.repos_getCommit prCommitSha)
    let changedFiles := prCommitDetail.files
    if changedFiles.length = 0 then
      pure ⟨false, "skipped", none, none⟩
    else do
      let baseSha ← apiCall (.gitGetRef ("heads/" ++ baseBranch))
        (env.git_getRef ("heads/" ++ baseBranch))
      let baseCommit ← apiCall (.gitGetCommit baseSha) (env.git_getCommit baseSha)
      let baseTreeSha := baseCommit.tree
      let treeUpdates ← changedFiles.foldlM (rebaseFileStep env prCommitSha baseBranch) []
      if treeUpdates.length = 0 then
        pure ⟨false, "skipped-no-changes", none, none⟩
      else do
        let newTreeSha ← apiCall .gitCreateTree (env.git_createTree baseTreeSha treeUpdates)
        let c := commits.headD default
        let newSha ← apiCall .gitCreateCommit
          (env.git_createCommit ⟨c.message, newTreeSha, [baseSha], some c.author, some c.committer⟩)
        let _ ← apiCall (.gitUpdateRef ("heads/" ++ prBranch) true)
          (env.git_updateRef ("heads/" ++ prBranch) newSha true)
        pure ⟨true, "success", some newSha, none⟩

/-- Embeds `apiRebasePR`: the catch block (lines 195-198) returns a
structured failure object instead of re-throwing. -/
def apiRebasePR (env : ApiEnv) : ApiM RebaseResult :=
  tryCatchM (apiRebaseBody env)
    (fun e => fun t => (Except.ok ⟨true, "failed", none, some e⟩, t))

/-- The `try` block of `apiCherryPickPR` (lines 211-314). -/
def apiCherryPickBody (env : ApiEnv) (prNumber : Int) : ApiM CherryResult := do
  let pr ← apiCall .pullsGet env.pulls_get
  let prBranch := pr.head_ref
  let baseBranch := pr.base_ref
  let baseSha ← apiCall (.gitGetRef ("heads/" ++ baseBranch))
    (env.git_getRef ("heads/" ++ baseBranch))
  let commits ← apiCall .pullsListCommits env.pulls_listCommits
  if commits.length = 0 then
    pure ⟨false, "skipped", none, none⟩
  else do
    let _originalPrSha ← apiCall (.gitGetRef ("heads/" ++ prBranch))
      (env.git_getRef ("heads/" ++ prBranch))
    let tempBranch := "temp-cherry-pick-" ++ toString prNumber ++ "-" ++ toString env.now
    let _ ← apiCall (.gitCreateRef ("refs/heads/" ++ tempBranch))
      (env.git_createRef ("refs/heads/" ++ tempBranch) baseSha)
    let currentSha ← commits.foldlM
      (fun cur commit => do
        let commitData ← apiCall (.gitGetCommit commit.sha) (env.git_getCommit commit.sha)
        let _ ← apiCall (.gitGetTree commitData.tree) (env.git_getTree commitData.tree)
        let newSha ← apiCall .gitCreateCommit
          (env.git_createCommit ⟨commitData.message, commitData.tree, [cur], some commitData.author, none⟩)
        let _ ← apiCall (.gitUpdateRef ("heads/" ++ tempBranch) false)
          (env.git_updateRef ("heads/" ++ tempBranch) newSha false)
        pure newSha)
      baseSha
    let _ ← apiCall (.gitUpdateRef ("heads/" ++ prBranch) true)
      (env.git_updateRef ("heads/" ++ prBranch) currentSha true)
    let _ ← apiCall (.gitDeleteRef ("heads/" ++ tempBranch))
      (env.git_deleteRef ("heads/" ++ tempBranch))
    pure ⟨true, "success", some currentSha, none⟩

/-- Embeds `apiCherryPickPR`: the catch block (lines 315-318) returns a
structured failure object instead of re-throwing. -/
def apiCherryPickPR (env : ApiEnv) (prNumber : Int) : ApiM CherryResult :=
  tryCatchM (apiCherryPickBody env prNumber)
    (fun e => fun t => (Except.ok ⟨true, "failed", none, some e⟩, t))

/- ---------------------------------------------------------------- -/
/- checkPrApprovals (lines 523-543) -/
/- ---------------------------------------------------------------- -/

/-- Result shape of `checkPrApprovals`. -/
structure ApprovalResult where
  approvalCount : Nat
  changeRequestCount : Nat
deriving DecidableEq, Inhabited

/-- One JS object assignment `latestByUser[k] = v`: overwrite the entry in
place when the key exists, otherwise append it (JS objects keep first-insertion
order of keys). -/
def upsert (m : List (String × String)) (k v : String) : List (String × String) :=
  if m.any (fun p => p.1 == k) then
    m.map (fun p => if p.1 = k then (k, v) else p)
  else
    m ++ [(k, v)]

/-- JS property read `latestByUser[u]` on the insertion-ordered object. -/
def lookupUser : List (String × String) → String → Option String
  | [], _ => none
  | p :: ps, u => if p.1 = u then some p.2 else lookupUser ps u

/-- The `latestByUser` object built by the loop at lines 531-534. -/
def latestByUser (reviews : List Review) : List (String × String) :=
  reviews.foldl (fun m r => upsert m r.user r.state) []

/-- Specification-side helper: the state of reviewer `u`'s chronologically
last review, if any. -/
def lastStateOf (reviews : List Review) (u : String) : Option String :=
  (reviews.filterMap (fun r => if u = r.user then some r.state else none)).getLast?

/-- Embeds `checkPrApprovals`. -/
def checkPrApprovals (env : ApiEnv) : ApiM ApprovalResult := do
  let reviews ← apiCall .pullsListReviews env.pulls_listReviews
  let latest := latestByUser reviews
  pure ⟨((latest.map Prod.snd).filter (fun s => s == "APPROVED")).length,
        ((latest.map Prod.snd).filter (fun s => s == "CHANGES_REQUESTED")).length⟩

/- ---------------------------------------------------------------- -/
/- getChangedSubmodules (lines 608-642) -/
/- ---------------------------------------------------------------- -/

/-- Result shape of `getChangedSubmodules`. -/
structure ChangedSubsResult where
  changed_submodules : List String
  changed_files : List String
  base_ref : String
  pr_ref : String
deriving DecidableEq, Inhabited

/-- JS `Set.prototype.add` on an insertion-ordered set modelled as a list. -/
def jsSetAdd (l : List String) (x : String) : List String :=
  if x ∈ l then l else l ++ [x]

/-- `parts[parts.length - 1]` of `filename.split("/")` (line 621-622). -/
def jsBasename (filename : String) : List Char :=
  (splitOnP (fun c => c == '/') filename.data).getLastD []

/-- The classification test at line 625: `baseName && !baseName.includes(".")`
(a file counts as a submodule pointer when its basename is truthy, i.e.
non-empty, and has no dot). -/
def isSubmodulePath (filename : String) : Bool :=
  !(jsBasename filename).isEmpty && !(jsBasename filename).contains '.'

/-- Loop body of lines 617-628, accumulating `(changedFilesSet, changedSubmodulesSet)`. -/
def changedFoldStep (acc : List String × List String) (filename : String) :
    List String × List String :=
  if isSubmodulePath filename then (jsSetAdd acc.1 filename, jsSetAdd acc.2 filename)
  else (jsSetAdd acc.1 filename, acc.2)

/-- Embeds `getChangedSubmodules`. -/
def getChangedSubmodules (env : ApiEnv) : ApiM ChangedSubsResult := do
  let pr ← apiCall .pullsGet env.pulls_get
  let files ← apiCall .pullsListFiles env.pulls_listFiles
  let acc := (files.map (fun f => f.filename)).foldl changedFoldStep ([], [])
  pure ⟨acc.2, acc.1, pr.base_ref, pr.head_ref⟩

/- ---------------------------------------------------------------- -/
/- getConflictedFiles (lines 654-734) -/
/- ---------------------------------------------------------------- -/

/-- Result shape of `getConflictedFiles`. -/
structure ConflictResult where
  files_with_conflicts : List String
  submodule_conflicts : List String
  non_submodule_conflicts : List String
  mergeable : Option Bool
deriving DecidableEq, Inhabited

/-- `new Set(files)` as an insertion-ordered deduplicated list. -/
def jsSetOf (l : List String) : List String := l.foldl jsSetAdd []

/-- The submodule-path membership test used at lines 708-710 (and again by
the local pipeline): path equality or path-prefix match. -/
def fileInSubmodulePaths (submodulePaths : List String) (filename : String) : Bool :=
  submodulePaths.any (fun s => filename == s || jsStartsWith filename (s ++ "/"))

/-- The inner helper `getChangedFiles` (lines 673-682): compare `mergeBase`
against `r`; its own catch turns any error into an empty set. -/
def getChangedFilesAt (env : ApiEnv) (mergeBase r : String) : ApiM (List String) :=
  tryCatchM
    (do
      let comp ← apiCall (.reposCompareCommits mergeBase r) (env.repos_compareCommits mergeBase r)
      pure (jsSetOf comp.files))
    (fun _ => pure [])

/-- Embeds `getConflictedFiles`.  The conflict analysis runs only when
`mergeable` is exactly `false`; its outer try/catch degrades a failing
comparison to no detected conflicts; a non-submodule conflict throws. -/
def getConflictedFiles (env : ApiEnv) (submodulePaths : List String) : ApiM ConflictResult := do
  let pr ← apiCall .pullsGet env.pulls_get
  let filesWithConflicts ←
    if pr.mergeable = some false then
      tryCatchM
        (do
          let comp ← apiCall (.reposCompareCommits pr.base_ref pr.head_ref)
            (env.repos_compareCommits pr.base_ref pr.head_ref)
          if comp.status == "diverged" then do
            let mergeBase := comp.merge_base_sha
            let baseFiles ← getChangedFilesAt env mergeBase pr.base_ref
            let headFiles ← getChangedFilesAt env mergeBase pr.head_ref
            pure (baseFiles.filter (fun f => f ∈ headFiles))
          else
            pure [])
        (fun _ => pure [])
    else
      pure []
  let submoduleConflicts := filesWithConflicts.filter (fun f => fileInSubmodulePaths submodulePaths f)
  let nonSubmoduleConflicts := filesWithConflicts.filter (fun f => !fileInSubmodulePaths submodulePaths f)
  if nonSubmoduleConflicts.length > 0 then
    throwM ("Workflow stopped because of base conflicts in non-submodule files:\n"
      ++ String.intercalate "\n" nonSubmoduleConflicts)
  else
    pure ⟨submoduleConflicts ++ nonSubmoduleConflicts, submoduleConflicts,
          nonSubmoduleConflicts, pr.mergeable⟩

/-- Pure mirror of the `filesWithConflicts` computation inside
`getConflictedFiles`, used to state which files the function detects. -/
def detectConflicts (env : ApiEnv) (pr : PR) : List String :=
  if pr.mergeable = some false then
    match env.repos_compareCommits pr.base_ref pr.head_ref with
    | Except.error _ => []
    | Except.ok comp =>
      if comp.status == "diverged" then
        let baseFiles := match env.repos_compareCommits comp.merge_base_sha pr.base_ref with
          | Except.ok c => jsSetOf c.files
          | Except.error _ => []
        let headFiles := match env.repos_compareCommits comp.merge_base_sha pr.head_ref with
          | Except.ok c => jsSetOf c.files
          | Except.error _ => []
        baseFiles.filter (fun f => f ∈ headFiles)
      else []
  else []

/- ---------------------------------------------------------------- -/
/- Submodule resolver: shaInBranch (907-919),
   determinePRBranchAndNumber (982-1035) -/
/- ---------------------------------------------------------------- -/

/-- Embeds `shaInBranch`: `listCommitsRes` is the outcome of
`repos.listCommits({sha: branch, per_page: 100})`, i.e. the last 100 commits
of the branch; any error yields `false`. -/
def shaInBranch (listCommitsRes : Except String (List String)) (sha : String) : Bool :=
  match listCommitsRes with
  | Except.ok commits => commits.any (fun c => c == sha)
  | Except.error _ => false

/-- One PR of the `prs` list passed to `determinePRBranchAndNumber`
(fields the source reads; `merged_at` is a timestamp, `none` = never merged). -/
structure PRItem where
  state : String
  merged_at : Option Nat
  head_ref : String
  number : Int
deriving DecidableEq, Inhabited

/-- Result of `determinePRBranchAndNumber`: `prBranch`/`prNumber` are `null`
initialized (modelled by `none`); `failed` records that `core.setFailed` was
called (the source still returns the null pair afterwards). -/
structure ResolveResult where
  prBranch : Option String
  prNumber : Option Int
  failed : Bool
deriving DecidableEq, Inhabited

/-- Insertion step of `sortByMergedDesc`. -/
def insertByMergedDesc (x : PRItem) : List PRItem → List PRItem
  | [] => [x]
  | y :: ys =>
    if y.merged_at.getD 0 ≤ x.merged_at.getD 0 then x :: y :: ys
    else y :: insertByMergedDesc x ys

/-- Models `prs.sort((a, b) => new Date(b.merged_at) - new Date(a.merged_at))`:
sort by merge timestamp, most recent first. -/
def sortByMergedDesc : List PRItem → List PRItem
  | [] => []
  | x :: xs => insertByMergedDesc x (sortByMergedDesc xs)

/-- Embeds `determinePRBranchAndNumber`: the fixed five-way precedence over a
submodule pointer SHA.  `sha` and `repoName` only feed log messages. -/
def determinePRBranchAndNumber (sha repoName baseBranch : String)
    (isShaOnBaseBranch : Bool) (branchesContainingSha : List String)
    (prs : List PRItem) : ResolveResult :=
  let openPRs := prs.filter (fun p => p.state == "open")
  let mergedPRs := prs.filter (fun p => p.merged_at.isSome)
  if isShaOnBaseBranch then
    ⟨some baseBranch, some 0, false⟩
  else if openPRs.length = 1 then
    let prObj := openPRs.headD default
    ⟨some prObj.head_ref, some prObj.number, false⟩
  else if mergedPRs.length ≥ 1 then
    let latest := (sortByMergedDesc mergedPRs).headD default
    ⟨some latest.head_ref, some latest.number, false⟩
  else if branchesContainingSha.length = 1 then
    ⟨some (branchesContainingSha.headD ""), some (-1), false⟩
  else if branchesContainingSha.length > 1 then
    ⟨none, none, true⟩
  else
    ⟨none, none, true⟩

/- ---------------------------------------------------------------- -/
/- Local Pipeline Runner: localGitMergePipeline (lines 336-512) -/
/- ---------------------------------------------------------------- -/

/-- Process-level state threaded through the local pipeline: the process-wide
working directory mutated by `process.chdir`, plus a shell-invocation counter
and the log of commands issued. -/
structure PipeState where
  cwd : String
  calls : Nat
  cmds : List String
deriving DecidableEq, Repr

/-- Environment of the local pipeline: whether `process.chdir(path)` succeeds,
and the outcome of the i-th `execSync` invocation of a given command line. -/
structure GitEnv where
  chdirOk : String → Bool
  exec : Nat → String → Except String String

/-- Outcome of a pipeline fragment: normal value, thrown error, or
`process.exit` (which terminates the whole process). -/
inductive GitRes (α : Type) where
  | ok (a : α) (s : PipeState)
  | err (e : String) (s : PipeState)
  | exited (code : Nat) (s : PipeState)

/-- State-threading monad for the local pipeline. -/
def GitM (α : Type) : Type := PipeState → GitRes α

instance : Monad GitM where
  pure a := fun s => GitRes.ok a s
  bind x f := fun s =>
    match x s with
    | GitRes.ok a s' => f a s'
    | GitRes.err e s' => GitRes.err e s'
    | GitRes.exited c s' => GitRes.exited c s'

/-- The `run` helper (lines 340-354): log the command, execute it, trim the
output; on failure either continue with `''` (`allowFail`) or throw. -/
def runC (env : GitEnv) (allowFail : Bool) (cmd : String) : GitM String := fun s =>
  let s' : PipeState := ⟨s.cwd, s.calls + 1, s.cmds ++ [cmd]⟩
  match env.exec s.calls cmd with
  | Except.ok out => GitRes.ok out.trim s'
  | Except.error e => if allowFail then GitRes.ok "" s' else GitRes.err e s'

/-- `core.setFailed(...); process.exit(code)`. -/
def exitG {α : Type} (code : Nat) : GitM α := fun s => GitRes.exited code s

/-- `subConflicts.forEach(sub => run(`git add "${sub}"`))` (line 436). -/
def gitAddAll (env : GitEnv) : List String → GitM Unit
  | [] => pure ()
  | f :: fs => do
    let _ ← runC env false ("git add \"" ++ f ++ "\"")
    gitAddAll env fs

/-- The `try` block of `localGitMergePipeline` (lines 373-497).  Notes on
fidelity: `msgs.replace(/"/g, '\"')` is the identity (the JS literal
`'\"'` is just a quote), so `msgs` is spliced unchanged; `hadSubConflicts`
is only ever true in the conflict branch, which never reaches the push
block sitting in the no-conflict branch, so both push sites issue the same
`--force-with-lease` command; `process.exit(1)` after `core.setFailed`
terminates the branch, so the sequential conflict checks of the source are
written as nested alternatives; the final merge --ff-only and target-branch
push are commented out in the source (lines 487, 491) and therefore absent. -/
def pipelineBody (env : GitEnv) (remote : String) (prNumber : Int)
    (tgtBranch prBranch : String) (isBase : Bool) (submodules : List String) :
    GitM String := do
  let _ ← runC env false ("git fetch --no-tags --deepen=99999 " ++ remote ++ " " ++ tgtBranch)
  let _ ← runC env false ("git fetch --no-tags --deepen=99999 " ++ remote ++ " " ++ prBranch)
  let _st ← runC env false "git status"
  let _ ← runC env false ("git checkout -b " ++ prBranch ++ " origin/" ++ prBranch)
  if isBase ∧ submodules.length > 0 then
    let _ ← runC env false
      ("git submodule update --init --recursive " ++ String.intercalate " " submodules)
    pure ()
  else
    pure ()
  let base ← runC env false ("git merge-base HEAD origin/" ++ tgtBranch)
  let cnt ← runC env false ("git rev-list --count " ++ base ++ "..HEAD")
  if (jsParseInt cnt).getD 0 > 1 then
    let msgs ← runC env false
      ("git log --reverse --pretty=format:\"%s%n%b\" " ++ base ++ "..HEAD")
    let _ ← runC env false ("git reset --soft " ++ base)
    let _ ← runC env false
      ("git commit -m \"PR #" ++ toString prNumber ++ " - Squash\" -m \"" ++ msgs ++ "\"")
    pure ()
  else
    pure ()
  if isBase ∧ submodules.length > 0 then
    let _ ← runC env true ("git rebase origin/" ++ tgtBranch)
    let conflictedRaw ← runC env true "git diff --name-only --diff-filter=U"
    let conflicted := (splitLines conflictedRaw).filter (fun l => l ≠ "")
    if conflicted.length > 0 then
      let subConflicts :=
        if isBase then conflicted.filter (fun f => fileInSubmodulePaths submodules f) else []
      let nonSubConflicts := conflicted.filter (fun f => !fileInSubmodulePaths submodules f)
      if nonSubConflicts.length > 0 then
        exitG 1
      else if subConflicts.length > 0 then do
        gitAddAll env subConflicts
        let _ ← runC env false "git commit --no-edit"
        let _ ← runC env true "git rebase --continue"
        pure ()
      else
        pure ()
    else
      let finalRebase ← runC env true ("git rebase origin/" ++ tgtBranch)
      if containsCI finalRebase "up to date" || containsCI finalRebase "no rebase in progress" then
        let _ ← runC env false ("git push " ++ remote ++ " " ++ prBranch ++ " --force-with-lease")
        pure ()
      else if containsSub finalRebase "error" || containsSub finalRebase "conflict" then
        exitG 1
      else
        let _ ← runC env false ("git push " ++ remote ++ " " ++ prBranch ++ " --force-with-lease")
        pure ()
  else
    let _ ← runC env false ("git rebase origin/" ++ tgtBranch)
    pure ()
  let _ ← runC env false ("git checkout " ++ tgtBranch)
  let _ ← runC env false ("git pull " ++ remote ++ " " ++ tgtBranch)
  pure ("Successfully merged PR #" ++ toString prNumber ++ " from " ++ prBranch ++ " into " ++ tgtBranch)

/-- Embeds `localGitMergePipeline`.  A non-empty `submodulePath` triggers
`process.chdir(submodulePath)` at entry (lines 360-368; a failing chdir only
logs a warning).  The try block either returns its final message or the catch
block re-throws (lines 498-501), so the directory-restoring block at lines
502-511 is unreachable: no branch below ever writes `cwd` back to the
original working directory. -/
def localGitMergePipeline (env : GitEnv) (remote : String) (prNumber : Int)
    (tgtBranch prBranch : String) (isBase : Bool) (submodules : List String)
    (submodulePath : String) : GitM String := fun s0 =>
  let s1 :=
    if submodulePath ≠ "" then
      (if env.chdirOk submodulePath then { s0 with cwd := submodulePath } else s0)
    else s0
  match pipelineBody env remote prNumber tgtBranch prBranch isBase submodules s1 with
  | GitRes.ok msg s2 => GitRes.ok msg s2
  | GitRes.err e s2 => GitRes.err e s2
  | GitRes.exited c s2 => GitRes.exited c s2

/-- The process working directory an outcome leaves behind. -/
def cwdOf {α : Type} : GitRes α → String
  | GitRes.ok _ s => s.cwd
  | GitRes.err _ s => s.cwd
  | GitRes.exited _ s => s.cwd

/-- A pipeline fragment that never moves the process working directory. -/
def PresCwd {α : Type} (m : GitM α) : Prop := ∀ s, cwdOf (m s) = s.cwd

/- ---------------------------------------------------------------- -/
/- Statement-side helper predicates and concrete environments -/
/- ---------------------------------------------------------------- -/

/-- A changed-file entry whose content is genuinely identical between the PR
commit and the base branch: not a deletion, both fetches succeed, both sides
are files, and the decoded contents agree. -/
def fileUnchanged (env : ApiEnv) (prCommitSha baseBranch : String) (f : ChangedFile) : Prop :=
  f.status ≠ "removed" ∧
  ∃ c1 c2, env.repos_getContent f.filename prCommitSha = Except.ok c1 ∧
    env.repos_getContent f.filename baseBranch = Except.ok c2 ∧
    c1.isFile = true ∧ c2.isFile = true ∧ c1.content = c2.content

/-- The two content reads `rebaseFileStep` issues per changed file. -/
def contentCalls (prCommitSha baseBranch : String) : List ChangedFile → List ApiCall
  | [] => []
  | f :: fs =>
    ApiCall.reposGetContent f.filename prCommitSha ::
    ApiCall.reposGetContent f.filename baseBranch ::
    contentCalls prCommitSha baseBranch fs

/-- Hypotheses of the tree-diff round-trip theorem: a well-formed single-commit
PR whose every changed file is content-identical to the base branch. -/
def rebaseUnchangedHyp (env : ApiEnv) (pr : PR) (c : CommitRef) (detail : CommitDetail)
    (baseSha : String) (baseCommit : GitCommit) : Prop :=
  env.pulls_get = Except.ok pr ∧
  env.pulls_listCommits = Except.ok [c] ∧
  env.repos_getCommit c.sha = Except.ok detail ∧
  detail.files ≠ [] ∧
  env.git_getRef ("heads/" ++ pr.base_ref) = Except.ok baseSha ∧
  env.git_getCommit baseSha = Except.ok baseCommit ∧
  ∀ f ∈ detail.files, fileUnchanged env c.sha pr.base_ref f

/-- Conclusion bundle for the approval-tally theorem: the reviewer map has
each reviewer exactly once, mapped to their chronologically last review state,
and a single reviewer never carries two states. -/
def approvalTallyConcl (reviews : List Review) : Prop :=
  ((latestByUser reviews).map Prod.fst).Nodup ∧
  (∀ u, lookupUser (latestByUser reviews) u = lastStateOf reviews u) ∧
  (∀ u v1 v2, (u, v1) ∈ latestByUser reviews → (u, v2) ∈ latestByUser reviews → v1 = v2)

/-- Conclusion bundle for the conflict-inspector theorem: the function throws
exactly when some detected conflict file escapes every submodule path, and a
PR whose `mergeable` flag is not exactly `false` short-circuits to empty
results with no comparison call issued. -/
def conflictInspectorConcl (env : ApiEnv) (submodulePaths : List String) (pr : PR) : Prop :=
  ((∃ e, (runM (getConflictedFiles env submodulePaths)).1 = Except.error e) ↔
    ∃ f ∈ detectConflicts env pr, fileInSubmodulePaths submodulePaths f = false) ∧
  (pr.mergeable ≠ some false →
    runM (getConflictedFiles env submodulePaths) =
      (Except.ok ⟨[], [], [], pr.mergeable⟩, [ApiCall.pullsGet]))

/-- Conclusion bundle for the changed-submodule classification theorem. -/
def changedSubsConcl (r : ChangedSubsResult) (files : List ChangedFile) : Prop :=
  (∀ fn, fn ∈ r.changed_submodules ↔
    fn ∈ r.changed_files ∧ jsBasename fn ≠ [] ∧ (jsBasename fn).contains '.' = false) ∧
  (∀ fn, fn ∈ r.changed_files ↔ fn ∈ files.map (fun f => f.filename)) ∧
  r.changed_submodules ⊆ r.changed_files

/-- A hosting environment in which every endpoint rejects. -/
def allFailEnv : ApiEnv where
  now := 0
  pulls_get := Except.error "boom"
  pulls_listCommits := Except.error "boom"
  pulls_listFiles := Except.error "boom"
  pulls_listReviews := Except.error "boom"
  git_getCommit := fun _ => Except.error "boom"
  repos_getCommit := fun _ => Except.error "boom"
  git_getRef := fun _ => Except.error "boom"
  repos_getContent := fun _ _ => Except.error "boom"
  repos_compareCommits := fun _ _ => Except.error "boom"
  repos_listCommits := fun _ => Except.error "boom"
  git_getTree := fun _ => Except.error "boom"
  git_createBlob := fun _ => Except.error "boom"
  git_createTree := fun _ _ => Except.error "boom"
  git_createCommit := fun _ => Except.error "boom"
  git_createRef := fun _ _ => Except.error "boom"
  git_updateRef := fun _ _ _ => Except.error "boom"
  git_deleteRef := fun _ => Except.error "boom"

/-- Concrete PR snapshot reused by the witness environments. -/
def witnessPR : PR where
  title := "Add widget"
  body := some "Body"
  head_ref := "feature"
  base_ref := "main"
  mergeable := some true

/-- Witness environment for the squash-skip theorem: one-commit PR. -/
def squashSkipEnv : ApiEnv :=
  { allFailEnv with
    pulls_get := Except.ok witnessPR
    pulls_listCommits := Except.ok [⟨"c1", "msg", default, default⟩] }

/-- Witness environment for the tree-diff round-trip theorem: a single-commit
PR touching one file whose content equals the base branch's. -/
def rebaseNoopEnv : ApiEnv :=
  { allFailEnv with
    pulls_get := Except.ok witnessPR
    pulls_listCommits := Except.ok [⟨"c1", "msg", default, default⟩]
    repos_getCommit := fun _ => Except.ok ⟨[⟨"a.txt", "modified"⟩]⟩
    git_getRef := fun _ => Except.ok "b1"
    git_getCommit := fun _ => Except.ok ⟨["b0"], "t1", default, "base"⟩
    repos_getContent := fun _ _ => Except.ok ⟨true, "same"⟩ }

/-- Witness environment for the approval-tally theorem: alice approved, then
requested changes; bob approved. -/
def approvalsEnv : ApiEnv :=
  { allFailEnv with
    pulls_listReviews := Except.ok
      [⟨"alice", "APPROVED"⟩, ⟨"alice", "CHANGES_REQUESTED"⟩, ⟨"bob", "APPROVED"⟩] }

/-- Witness environment for the conflict-inspector theorem: an unmergeable,
diverged PR in which `src/x` changed on both sides. -/
def conflictEnv : ApiEnv :=
  { allFailEnv with
    pulls_get := Except.ok { witnessPR with mergeable := some false }
    repos_compareCommits := fun b _ =>
      if b = "main" then Except.ok ⟨"diverged", "mb", []⟩
      else Except.ok ⟨"ahead", "", ["src/x", "vendor/libfoo"]⟩ }

/-- Witness environment for the mergeable short-circuit: `mergeable` is `true`. -/
def mergeableEnv : ApiEnv :=
  { allFailEnv with pulls_get := Except.ok witnessPR }

/-- Environment for the changed-submodule counterexample: the PR changes
`vendor/libfoo` (a real submodule pointer), `Makefile` (extensionless file)
and `sub/` (trailing-slash path with an empty basename). -/
def changedSubsEnv : ApiEnv :=
  { allFailEnv with
    pulls_get := Except.ok witnessPR
    pulls_listFiles := Except.ok [⟨"sub/", "modified"⟩, ⟨"Makefile", "modified"⟩] }

/-- Local-pipeline environment in which chdir and every git command succeed. -/
def happyGitEnv : GitEnv where
  chdirOk := fun _ => true
  exec := fun _ _ => Except.ok "done"

/- ---------------------------------------------------------------- -/
/- Basic computation lemmas for the effect monads -/
/- ---------------------------------------------------------------- -/

@[simp]
theorem ApiM_bind_apply {α β : Type} (x : ApiM α) (f : α → ApiM β) (t : List ApiCall) :
    (x >>= f) t =
      match x t with
      | (Except.ok a, t') => f a t'
      | (Except.error e, t') => (Except.error e, t') := rfl

@[simp]
theorem ApiM_pure_apply {α : Type} (a : α) (t : List ApiCall) :
    (pure a : ApiM α) t = (Except.ok a, t) := rfl

@[simp]
theorem apiCall_apply {α : Type} (c : ApiCall) (r : Except String α) (t : List ApiCall) :
    apiCall c r t = (r, t ++ [c]) := rfl

@[simp]
theorem throwM_apply {α : Type} (e : String) (t : List ApiCall) :
    (throwM e : ApiM α) t = (Except.error e, t) := rfl

/- ---------------------------------------------------------------- -/
/- String-primitive lemmas -/
/- ---------------------------------------------------------------- -/

theorem str_data_append (a b : String) : (a ++ b).data = a.data ++ b.data := rfl

theorem listStarts_append (p r : List Char) : listStarts p (p ++ r) = true := by
  induction p with
  | nil => rfl
  | cons c cs ih => simp [listStarts, ih]

theorem replFirstAux_at_match (pat rep l : List Char) (h : listStarts pat l = true) :
    replFirstAux pat rep l = rep ++ l.drop pat.length := by
  cases l with
  | nil =>
    cases pat with
    | nil => simp [replFirstAux, listStarts]
    | cons p ps => simp [listStarts] at h
  | cons c cs => simp [replFirstAux, h]

theorem replFirstAux_suffix (pat rep : List Char) (body : List Char)
    (h : ∀ i, i < body.length → listStarts pat (body.drop i ++ pat) = false) :
    replFirstAux pat rep (body ++ pat) = body ++ rep := by
  induction body with
  | nil =>
    have hself : listStarts pat pat = true := by
      simpa using listStarts_append pat []
    simpa [List.drop_length] using replFirstAux_at_match pat rep pat hself
  | cons c cs ih =>
    have h0 : listStarts pat (c :: (cs ++ pat)) = false := by
      simpa using h 0 (by simp)
    have ih' := ih (fun i hi => by simpa using h (i + 1) (by simpa using Nat.succ_lt_succ hi))
    simp [replFirstAux, h0, ih']

theorem splitOnP_no_sep (p : Char → Bool) (l : List Char) (h : ∀ c ∈ l, p c = false) :
    splitOnP p l = [l] := by
  induction l with
  | nil => rfl
  | cons c cs ih =>
    have hc : p c = false := h c (by simp)
    have ihh := ih (fun x hx => h x (by simp [hx]))
    simp [splitOnP, hc, ihh]

theorem splitOnP_two (p : Char → Bool) (a b : List Char) (s : Char)
    (hs : p s = true) (ha : ∀ c ∈ a, p c = false) (hb : ∀ c ∈ b, p c = false) :
    splitOnP p (a ++ s :: b) = [a, b] := by
  induction a with
  | nil => simp [splitOnP, hs, splitOnP_no_sep p b hb]
  | cons c cs ih =>
    have hc : p c = false := ha c (by simp)
    have ihh := ih (fun x hx => ha x (by simp [hx]))
    simp [splitOnP, hc, ihh]

/- ---------------------------------------------------------------- -/
/- C8: deriveRepoNameFromUrl on hosting HTTPS URLs -/
/- ---------------------------------------------------------------- -/

/-- C8 (amended): for every hosting HTTPS URL of the form
`https://github.com/<org>/<name>.git` — where `org` and `name` contain no
slash and `.git` occurs nowhere in `<org>/<name>` other than as the final
suffix — `deriveRepoNameFromUrl` returns the path segment after the org with
the `.git` suffix stripped, i.e. `some name`.  The extra occurrence condition
is forced by the counterexample below: JS `replace(".git", "")` strips the
first occurrence, not the final suffix. -/
theorem deriveRepoNameFromUrl_https (org name : String)
    (horg : ∀ c ∈ org.data, (c == '/') = false)
    (hname : ∀ c ∈ name.data, (c == '/') = false)
    (hgit : ∀ i, i < (org.data ++ '/' :: name.data).length →
      listStarts ".git".data ((org.data ++ '/' :: name.data).drop i ++ ".git".data) = false) :
    deriveRepoNameFromUrl ("https://github.com/" ++ org ++ "/" ++ name ++ ".git") = some name := by
  have hslash : "/".data = ['/'] := rfl
  have hurl : ("https://github.com/" ++ org ++ "/" ++ name ++ ".git").data
      = "https://github.com/".data ++ ((org.data ++ '/' :: name.data) ++ ".git".data) := by
    simp [str_data_append, hslash]
  have hs : jsStartsWith ("https://github.com/" ++ org ++ "/" ++ name ++ ".git")
      "https://github.com/" = true := by
    unfold jsStartsWith
    rw [hurl, listStarts_append]
  have h1 : jsReplace ("https://github.com/" ++ org ++ "/" ++ name ++ ".git")
      "https://github.com/" "" = ⟨(org.data ++ '/' :: name.data) ++ ".git".data⟩ := by
    unfold jsReplace
    rw [hurl, replFirstAux_at_match _ _ _ (listStarts_append _ _)]
    simp
  have h2 : jsReplace (⟨(org.data ++ '/' :: name.data) ++ ".git".data⟩ : String)
      ".git" "" = ⟨org.data ++ '/' :: name.data⟩ := by
    unfold jsReplace
    have hx := replFirstAux_suffix ".git".data "".data (org.data ++ '/' :: name.data) hgit
    exact congrArg String.mk (by simpa using hx)
  have h3 : splitOnP (fun c => c == '/') (org.data ++ '/' :: name.data) = [org.data, name.data] :=
    splitOnP_two _ org.data name.data '/' (by decide) horg hname
  unfold deriveRepoNameFromUrl
  rw [hs]
  simp only [if_true]
  rw [h1, h2]
  show ((splitOnP (fun c => c == '/') (org.data ++ '/' :: name.data)).map
    (fun l => String.mk l))[1]? = some name
  rw [h3]
  rfl

theorem deriveRepoNameFromUrl_https_witness :
    ((∀ c ∈ "acme".data, (c == '/') = false) ∧
     (∀ c ∈ "libfoo".data, (c == '/') = false) ∧
     (∀ i, i < ("acme".data ++ '/' :: "libfoo".data).length →
       listStarts ".git".data (("acme".data ++ '/' :: "libfoo".data).drop i ++ ".git".data) = false)) ∧
    deriveRepoNameFromUrl ("https://github.com/" ++ "acme" ++ "/" ++ "libfoo" ++ ".git")
      = some "libfoo" :=
  ⟨⟨by decide, by decide, by decide⟩,
   deriveRepoNameFromUrl_https "acme" "libfoo" (by decide) (by decide) (by decide)⟩

/- ---------------------------------------------------------------- -/
/- C1, C2: determinePRBranchAndNumber precedence -/
/- ---------------------------------------------------------------- -/

/-- C1: whenever `shaInBranch` reports the submodule pointer SHA as present
among the last 100 commits of the computed base branch,
`determinePRBranchAndNumber` returns `(baseBranch, 0)`, for every list of
branches having the SHA at their head and every list of associated PRs: the
base-branch case precedes every other resolution case. -/
theorem determinePRBranchAndNumber_base_first
    (listCommitsRes : Except String (List String)) (sha repoName baseBranch : String)
    (branchesContainingSha : List String) (prs : List PRItem)
    (h : shaInBranch listCommitsRes sha = true) :
    determinePRBranchAndNumber sha repoName baseBranch (shaInBranch listCommitsRes sha)
      branchesContainingSha prs = ⟨some baseBranch, some 0, false⟩ := by
  unfold determinePRBranchAndNumber
  simp [h]

theorem determinePRBranchAndNumber_base_first_witness :
    shaInBranch (Except.ok ["abc", "older"]) "abc" = true ∧
    determinePRBranchAndNumber "abc" "libfoo" "main"
      (shaInBranch (Except.ok ["abc", "older"]) "abc")
      ["feature1", "feature2"] [⟨"open", none, "feature1", 5⟩]
      = ⟨some "main", some 0, false⟩ :=
  ⟨by decide,
   determinePRBranchAndNumber_base_first (Except.ok ["abc", "older"]) "abc" "libfoo" "main"
     ["feature1", "feature2"] [⟨"open", none, "feature1", 5⟩] (by decide)⟩

/-- C2: a SHA not on the base branch, with no open and no merged associated
PR, sitting at the head of two or more branches resolves to the failure
result: `core.setFailed` fires and the returned pair stays `(null, null)` —
no guessed branch. -/
theorem determinePRBranchAndNumber_ambiguous_tip
    (sha repoName baseBranch : String) (branchesContainingSha : List String)
    (prs : List PRItem)
    (hopen : ∀ p ∈ prs, p.state ≠ "open")
    (hmerged : ∀ p ∈ prs, p.merged_at = none)
    (hbr : 2 ≤ branchesContainingSha.length) :
    determinePRBranchAndNumber sha repoName baseBranch false branchesContainingSha prs
      = ⟨none, none, true⟩ := by
  unfold determinePRBranchAndNumber
  have h1 : prs.filter (fun p => p.state == "open") = [] := by
    rw [List.filter_eq_nil_iff]
    intro p hp
    simp [hopen p hp]
  have h2 : prs.filter (fun p => p.merged_at.isSome) = [] := by
    rw [List.filter_eq_nil_iff]
    intro p hp
    simp [hmerged p hp]
  have h3 : branchesContainingSha.length ≠ 1 := by omega
  have h4 : 1 < branchesContainingSha.length := by omega
  simp [h1, h2, h3, h4]

theorem determinePRBranchAndNumber_ambiguous_tip_witness :
    (∀ p ∈ ([⟨"closed", none, "x", 9⟩] : List PRItem), p.state ≠ "open") ∧
    (∀ p ∈ ([⟨"closed", none, "x", 9⟩] : List PRItem), p.merged_at = none) ∧
    2 ≤ (["b1", "b2"] : List String).length ∧
    determinePRBranchAndNumber "abc" "libfoo" "main" false ["b1", "b2"]
      [⟨"closed", none, "x", 9⟩] = ⟨none, none, true⟩ :=
  ⟨by decide, by decide, by decide,
   determinePRBranchAndNumber_ambiguous_tip "abc" "libfoo" "main" ["b1", "b2"]
     [⟨"closed", none, "x", 9⟩] (by decide) (by decide) (by decide)⟩

/- ---------------------------------------------------------------- -/
/- C5: squash skips PRs with at most one commit and performs no writes -/
/- ---------------------------------------------------------------- -/

/-- C5: for every PR whose commit list has length at most 1, `apiSquashPR`
returns `{ squashNeeded: false, result: "skipped" }`, and the complete call
trace consists of the two reads — no commit creation, no ref update, no
write call of any kind. -/
theorem apiSquashPR_skip (env : ApiEnv) (pr : PR) (commits : List CommitRef)
    (h1 : env.pulls_get = Except.ok pr) (h2 : env.pulls_listCommits = Except.ok commits)
    (h3 : commits.length ≤ 1) :
    runM (apiSquashPR env) =
      (Except.ok ⟨false, "skipped", none⟩, [ApiCall.pullsGet, ApiCall.pullsListCommits]) ∧
    ∀ c ∈ [ApiCall.pullsGet, ApiCall.pullsListCommits], isWriteCall c = false := by
  refine ⟨?_, by decide⟩
  unfold runM apiSquashPR tryCatchM apiSquashBody
  simp [h1, h2, h3]

theorem apiSquashPR_skip_witness :
    (squashSkipEnv.pulls_get = Except.ok witnessPR ∧
     squashSkipEnv.pulls_listCommits = Except.ok [⟨"c1", "msg", default, default⟩] ∧
     ([(⟨"c1", "msg", default, default⟩ : CommitRef)]).length ≤ 1) ∧
    (runM (apiSquashPR squashSkipEnv) =
      (Except.ok ⟨false, "skipped", none⟩, [ApiCall.pullsGet, ApiCall.pullsListCommits]) ∧
     ∀ c ∈ [ApiCall.pullsGet, ApiCall.pullsListCommits], isWriteCall c = false) :=
  ⟨⟨rfl, rfl, by decide⟩,
   apiSquashPR_skip squashSkipEnv witnessPR [⟨"c1", "msg", default, default⟩] rfl rfl (by decide)⟩

/- ---------------------------------------------------------------- -/
/- C4: error propagation contract of the three commit rewriters -/
/- ---------------------------------------------------------------- -/

/-- C4: when the underlying API throws inside the rebase or cherry-pick body,
the surrounding catch converts the error into the structured failure object
`{ <operation>Needed: true, result: "failed", error }`, while a throw inside
the squash body is re-thrown unchanged to the caller — squash never yields a
"failed" result object. -/
theorem rewriterErrorContract :
    (∀ (env : ApiEnv) (t t' : List ApiCall) (e : String),
      apiSquashBody env t = (Except.error e, t') →
      apiSquashPR env t = (Except.error e, t')) ∧
    (∀ (env : ApiEnv) (t t' : List ApiCall) (e : String),
      apiRebaseBody env t = (Except.error e, t') →
      apiRebasePR env t = (Except.ok ⟨true, "failed", none, some e⟩, t')) ∧
    (∀ (env : ApiEnv) (prNumber : Int) (t t' : List ApiCall) (e : String),
      apiCherryPickBody env prNumber t = (Except.error e, t') →
      apiCherryPickPR env prNumber t = (Except.ok ⟨true, "failed", none, some e⟩, t')) := by
  refine ⟨?_, ?_, ?_⟩
  · intro env t t' e h
    simp [apiSquashPR, tryCatchM, h, throwM]
  · intro env t t' e h
    simp [apiRebasePR, tryCatchM, h]
  · intro env prNumber t t' e h
    simp [apiCherryPickPR, tryCatchM, h]

theorem rewriterErrorContract_witness :
    apiSquashBody allFailEnv [] = (Except.error "boom", [ApiCall.pullsGet]) ∧
    apiSquashPR allFailEnv [] = (Except.error "boom", [ApiCall.pullsGet]) ∧
    apiRebaseBody allFailEnv [] = (Except.error "boom", [ApiCall.pullsGet]) ∧
    apiRebasePR allFailEnv [] =
      (Except.ok ⟨true, "failed", none, some "boom"⟩, [ApiCall.pullsGet]) ∧
    apiCherryPickBody allFailEnv 42 [] = (Except.error "boom", [ApiCall.pullsGet]) ∧
    apiCherryPickPR allFailEnv 42 [] =
      (Except.ok ⟨true, "failed", none, some "boom"⟩, [ApiCall.pullsGet]) :=
  ⟨rfl, rewriterErrorContract.1 allFailEnv [] [ApiCall.pullsGet] "boom" rfl,
   rfl, rewriterErrorContract.2.1 allFailEnv [] [ApiCall.pullsGet] "boom" rfl,
   rfl, rewriterErrorContract.2.2 allFailEnv 42 [] [ApiCall.pullsGet] "boom" rfl⟩

/- ---------------------------------------------------------------- -/
/- C6: tree-diff rebase excludes content-identical files; all-identical
   PRs skip with no writes -/
/- ---------------------------------------------------------------- -/

theorem rebaseFileStep_unchanged (env : ApiEnv) (pcs bb : String) (acc : List TreeEntry)
    (f : ChangedFile) (t : List ApiCall) (h : fileUnchanged env pcs bb f) :
    rebaseFileStep env pcs bb acc f t =
      (Except.ok acc, t ++ [ApiCall.reposGetContent f.filename pcs,
                            ApiCall.reposGetContent f.filename bb]) := by
  obtain ⟨hs, c1, c2, h1, h2, hf1, hf2, hc⟩ := h
  have hs' : (f.status == "removed") = false := by simpa using hs
  unfold rebaseFileStep
  simp [tryCatchM, h1, h2, hs, hs', hf1, hf2, hc]

theorem rebaseFold_unchanged (env : ApiEnv) (pcs bb : String) (files : List ChangedFile) :
    ∀ (acc : List TreeEntry) (t : List ApiCall),
    (∀ f ∈ files, fileUnchanged env pcs bb f) →
    (files.foldlM (rebaseFileStep env pcs bb) acc) t =
      (Except.ok acc, t ++ contentCalls pcs bb files) := by
  induction files with
  | nil =>
    intro acc t _
    simp [contentCalls]
  | cons f fs ih =>
    intro acc t hall
    rw [List.foldlM_cons]
    rw [ApiM_bind_apply]
    rw [rebaseFileStep_unchanged env pcs bb acc f t (hall f (by simp))]
    dsimp only
    rw [ih acc _ (fun g hg => hall g (by simp [hg]))]
    simp [contentCalls]

theorem contentCalls_reads (pcs bb : String) (files : List ChangedFile) :
    ∀ call ∈ contentCalls pcs bb files, isWriteCall call = false := by
  induction files with
  | nil =>
    intro call hc
    simp [contentCalls] at hc
  | cons f fs ih =>
    intro call hc
    simp [contentCalls] at hc
    rcases hc with rfl | rfl | hc
    · rfl
    · rfl
    · exact ih call hc

/-- C6: in the tree-diff rebase variant, every changed file whose content is
identical between the PR commit and the base branch is excluded from the new
tree's update list (the loop step returns its accumulator unchanged), and when
every changed file is such a no-op the operation returns
`result: "skipped-no-changes"` with a trace of reads only — no blob, tree,
commit or ref write. -/
theorem apiRebasePR_treeDiff_noop (env : ApiEnv) (pr : PR) (c : CommitRef)
    (detail : CommitDetail) (baseSha : String) (baseCommit : GitCommit)
    (h : rebaseUnchangedHyp env pr c detail baseSha baseCommit) :
    (∀ (acc : List TreeEntry) (f : ChangedFile) (t : List ApiCall), f ∈ detail.files →
      rebaseFileStep env c.sha pr.base_ref acc f t =
        (Except.ok acc, t ++ [ApiCall.reposGetContent f.filename c.sha,
                              ApiCall.reposGetContent f.filename pr.base_ref])) ∧
    runM (apiRebasePR env) =
      (Except.ok ⟨false, "skipped-no-changes", none, none⟩,
       [ApiCall.pullsGet, ApiCall.pullsListCommits, ApiCall.reposGetCommit c.sha,
        ApiCall.gitGetRef ("heads/" ++ pr.base_ref), ApiCall.gitGetCommit baseSha]
        ++ contentCalls c.sha pr.base_ref detail.files) ∧
    (∀ call ∈ [ApiCall.pullsGet, ApiCall.pullsListCommits, ApiCall.reposGetCommit c.sha,
        ApiCall.gitGetRef ("heads/" ++ pr.base_ref), ApiCall.gitGetCommit baseSha]
        ++ contentCalls c.sha pr.base_ref detail.files, isWriteCall call = false) := by
  obtain ⟨h1, h2, h3, h4, h5, h6, hall⟩ := h
  have h4' : ¬(detail.files.length = 0) := by
    simpa [List.length_eq_zero] using h4
  have hfold : ∀ (acc : List TreeEntry) (t : List ApiCall),
      (detail.files.foldlM (rebaseFileStep env c.sha pr.base_ref) acc) t =
        (Except.ok acc, t ++ contentCalls c.sha pr.base_ref detail.files) :=
    fun acc t => rebaseFold_unchanged env c.sha pr.base_ref detail.files acc t hall
  refine ⟨?_, ?_, ?_⟩
  · intro acc f t hf
    exact rebaseFileStep_unchanged env c.sha pr.base_ref acc f t (hall f hf)
  · unfold runM apiRebasePR tryCatchM apiRebaseBody
    simp [h1, h2, h3, h4, h5, h6, hfold]
  · intro call hc
    rcases List.mem_append.1 hc with hm | hm
    · simp only [List.mem_cons, List.not_mem_nil, or_false] at hm
      rcases hm with rfl | rfl | rfl | rfl | rfl <;> rfl
    · exact contentCalls_reads c.sha pr.base_ref detail.files call hm

theorem apiRebasePR_treeDiff_noop_witness :
    rebaseUnchangedHyp rebaseNoopEnv witnessPR ⟨"c1", "msg", default, default⟩
      ⟨[⟨"a.txt", "modified"⟩]⟩ "b1" ⟨["b0"], "t1", default, "base"⟩ ∧
    runM (apiRebasePR rebaseNoopEnv) =
      (Except.ok ⟨false, "skipped-no-changes", none, none⟩,
       [ApiCall.pullsGet, ApiCall.pullsListCommits, ApiCall.reposGetCommit "c1",
        ApiCall.gitGetRef ("heads/" ++ "main"), ApiCall.gitGetCommit "b1"]
        ++ contentCalls "c1" "main" [⟨"a.txt", "modified"⟩]) :=
  have hyp : rebaseUnchangedHyp rebaseNoopEnv witnessPR ⟨"c1", "msg", default, default⟩
      ⟨[⟨"a.txt", "modified"⟩]⟩ "b1" ⟨["b0"], "t1", default, "base"⟩ := by
    refine ⟨rfl, rfl, rfl, by decide, rfl, rfl, ?_⟩
    intro f hf
    simp only [List.mem_singleton] at hf
    subst hf
    exact ⟨by decide, ⟨true, "same"⟩, ⟨true, "same"⟩, rfl, rfl, rfl, rfl, rfl⟩
  ⟨hyp, (apiRebasePR_treeDiff_noop rebaseNoopEnv witnessPR ⟨"c1", "msg", default, default⟩
      ⟨[⟨"a.txt", "modified"⟩]⟩ "b1" ⟨["b0"], "t1", default, "base"⟩ hyp).2.1⟩

/- ---------------------------------------------------------------- -/
/- C7: approval tally collapses reviews to each reviewer's latest state -/
/- ---------------------------------------------------------------- -/

theorem lookup_map_update_ne (ps : List (String × String)) (k v u : String)
    (huk : u ≠ k) :
    lookupUser (ps.map (fun p => if p.1 = k then (k, v) else p)) u = lookupUser ps u := by
  induction ps with
  | nil => rfl
  | cons p ps ih =>
    by_cases hpk : p.1 = k
    · have hku : k ≠ u := fun h => huk h.symm
      have hpu : p.1 ≠ u := by rw [hpk]; exact hku
      simp [lookupUser, hpk, hku, hpu, ih]
    · by_cases hpu : p.1 = u <;> simp [lookupUser, hpk, hpu, huk, ih]

theorem lookup_map_update_eq (ps : List (String × String)) (k v u : String)
    (huk : u = k) (hany : ps.any (fun p => p.1 == k) = true) :
    lookupUser (ps.map (fun p => if p.1 = k then (k, v) else p)) u = some v := by
  subst huk
  induction ps with
  | nil => simp at hany
  | cons p ps ih =>
    by_cases hpk : p.1 = u
    · simp [lookupUser, hpk]
    · have hany' : ps.any (fun p => p.1 == u) = true := by
        simp only [List.any_cons, Bool.or_eq_true] at hany
        rcases hany with hx | hx
        · exact absurd (by simpa using hx) hpk
        · exact hx
      simp [lookupUser, hpk, ih hany']

theorem lookup_append_single (m : List (String × String)) (k v u : String)
    (hany : m.any (fun p => p.1 == k) = false) :
    lookupUser (m ++ [(k, v)]) u = if u = k then some v else lookupUser m u := by
  induction m with
  | nil =>
    by_cases h : u = k
    · simp [lookupUser, h]
    · simp [lookupUser, h, Ne.symm h]
  | cons p ps ih =>
    simp only [List.any_cons, Bool.or_eq_false_iff] at hany
    obtain ⟨hp, hps⟩ := hany
    have hpk : p.1 ≠ k := by simpa using hp
    by_cases hpu : p.1 = u
    · have huk : u ≠ k := fun h => hpk (hpu.trans h)
      simp [lookupUser, hpu, huk]
    · simp [lookupUser, hpu, ih hps]

theorem lookup_upsert (m : List (String × String)) (k v u : String) :
    lookupUser (upsert m k v) u = if u = k then some v else lookupUser m u := by
  unfold upsert
  cases hany : m.any (fun p => p.1 == k) with
  | true =>
    rw [if_pos rfl]
    by_cases huk : u = k
    · subst huk
      simp [lookup_map_update_eq m u v u rfl hany]
    · simp [huk, lookup_map_update_ne m k v u huk]
  | false =>
    rw [if_neg (by simp)]
    exact lookup_append_single m k v u hany

theorem lastStateOf_cons (r : Review) (rs : List Review) (u : String) :
    lastStateOf (r :: rs) u =
      match lastStateOf rs u with
      | some s => some s
      | none => if u = r.user then some r.state else none := by
  unfold lastStateOf
  rw [List.filterMap_cons]
  by_cases hur : u = r.user
  · rw [if_pos hur]
    cases hfm : (rs.filterMap fun r => if u = r.user then some r.state else none) with
    | nil => simp [hur]
    | cons x xs =>
      dsimp only
      rw [List.getLast?_cons_cons]
      cases hgl : (x :: xs).getLast? with
      | none => simp at hgl
      | some s => rfl
  · rw [if_neg hur]
    dsimp only
    cases hgl : (rs.filterMap fun r => if u = r.user then some r.state else none).getLast? with
    | none => simp [hur]
    | some s => simp

theorem latestFold_lookup (reviews : List Review) :
    ∀ (m : List (String × String)) (u : String),
    lookupUser (reviews.foldl (fun m r => upsert m r.user r.state) m) u =
      match lastStateOf reviews u with
      | some s => some s
      | none => lookupUser m u := by
  induction reviews with
  | nil =>
    intro m u
    simp [lastStateOf]
  | cons r rs ih =>
    intro m u
    rw [List.foldl_cons, ih (upsert m r.user r.state) u, lastStateOf_cons]
    cases hl : lastStateOf rs u with
    | some s => simp
    | none =>
      rw [lookup_upsert]
      by_cases hur : u = r.user <;> simp [hur]

theorem update_keys (m : List (String × String)) (k v : String) :
    ((m.map (fun p => if p.1 = k then (k, v) else p)).map Prod.fst) = m.map Prod.fst := by
  induction m with
  | nil => rfl
  | cons p ps ih =>
    by_cases hpk : p.1 = k
    · simp [hpk, ih]
    · simp [hpk, ih]

theorem latest_keys_nodup (reviews : List Review) :
    ∀ m : List (String × String), (m.map Prod.fst).Nodup →
    ((reviews.foldl (fun m r => upsert m r.user r.state) m).map Prod.fst).Nodup := by
  induction reviews with
  | nil =>
    intro m hm
    simpa using hm
  | cons r rs ih =>
    intro m hm
    rw [List.foldl_cons]
    apply ih
    unfold upsert
    cases hany : m.any (fun p => p.1 == r.user) with
    | true =>
      rw [if_pos rfl, update_keys]
      exact hm
    | false =>
      rw [if_neg (by simp)]
      have hk : r.user ∉ m.map Prod.fst := by
        intro hmem
        obtain ⟨p, hp, hpe⟩ := List.mem_map.mp hmem
        have : m.any (fun p => p.1 == r.user) = true :=
          List.any_eq_true.mpr ⟨p, hp, by simp [hpe]⟩
        simp [this] at hany
      simp [List.nodup_append, hm, hk]

theorem nodup_keys_val_unique (l : List (String × String)) (h : (l.map Prod.fst).Nodup)
    (u v1 v2 : String) (h1 : (u, v1) ∈ l) (h2 : (u, v2) ∈ l) : v1 = v2 := by
  induction l with
  | nil => simp at h1
  | cons p ps ih =>
    simp only [List.map_cons, List.nodup_cons] at h
    rcases List.mem_cons.mp h1 with he1 | ht1 <;> rcases List.mem_cons.mp h2 with he2 | ht2
    · have heq := he1.trans he2.symm
      injection heq with hfst hsnd
    · exfalso
      apply h.1
      have hpu : p.1 = u := by rw [← he1]
      rw [hpu]
      exact List.mem_map_of_mem Prod.fst ht2
    · exfalso
      apply h.1
      have hpu : p.1 = u := by rw [← he2]
      rw [hpu]
      exact List.mem_map_of_mem Prod.fst ht1
    · exact ih h.2 ht1 ht2

/-- C7: `checkPrApprovals` reports exactly the counts taken over the
`latestByUser` map, in which every reviewer appears at most once (keys
without duplicates), mapped to the state of their chronologically last
review, and a single reviewer never carries two states — so a reviewer with
history `[APPROVED, CHANGES_REQUESTED]` collapses to the single entry
`CHANGES_REQUESTED`, contributing 1 to `changeRequestCount` and 0 to
`approvalCount`, and no reviewer ever contributes to both counts. -/
theorem checkPrApprovals_latest_state (env : ApiEnv) (reviews : List Review)
    (h : env.pulls_listReviews = Except.ok reviews) :
    runM (checkPrApprovals env) =
      (Except.ok
        ⟨(((latestByUser reviews).map Prod.snd).filter (fun s => s == "APPROVED")).length,
         (((latestByUser reviews).map Prod.snd).filter (fun s => s == "CHANGES_REQUESTED")).length⟩,
       [ApiCall.pullsListReviews]) ∧
    approvalTallyConcl reviews ∧
    (∀ u, latestByUser [⟨u, "APPROVED"⟩, ⟨u, "CHANGES_REQUESTED"⟩] = [(u, "CHANGES_REQUESTED")]) := by
  refine ⟨?_, ⟨?_, ?_, ?_⟩, ?_⟩
  · unfold runM checkPrApprovals
    simp [h]
  · exact latest_keys_nodup reviews [] (by simp)
  · intro u
    unfold latestByUser
    rw [latestFold_lookup reviews [] u]
    cases lastStateOf reviews u <;> simp [lookupUser]
  · intro u v1 v2 h1 h2
    exact nodup_keys_val_unique _ (latest_keys_nodup reviews [] (by simp)) u v1 v2 h1 h2
  · intro u
    simp [latestByUser, upsert]

theorem checkPrApprovals_latest_state_witness :
    approvalsEnv.pulls_listReviews = Except.ok
      [⟨"alice", "APPROVED"⟩, ⟨"alice", "CHANGES_REQUESTED"⟩, ⟨"bob", "APPROVED"⟩] ∧
    runM (checkPrApprovals approvalsEnv) = (Except.ok ⟨1, 1⟩, [ApiCall.pullsListReviews]) ∧
    approvalTallyConcl [⟨"alice", "APPROVED"⟩, ⟨"alice", "CHANGES_REQUESTED"⟩, ⟨"bob", "APPROVED"⟩] :=
  have h := checkPrApprovals_latest_state approvalsEnv
    [⟨"alice", "APPROVED"⟩, ⟨"alice", "CHANGES_REQUESTED"⟩, ⟨"bob", "APPROVED"⟩] rfl
  ⟨rfl, h.1, h.2.1⟩

/- ---------------------------------------------------------------- -/
/- C10: changed-submodule classification by extensionless basename -/
/- ---------------------------------------------------------------- -/

theorem jsSetAdd_mem (l : List String) (x fn : String) :
    fn ∈ jsSetAdd l x ↔ fn ∈ l ∨ fn = x := by
  unfold jsSetAdd
  by_cases h : x ∈ l
  · rw [if_pos h]
    exact ⟨Or.inl, fun hf => hf.elim id (fun he => he ▸ h)⟩
  · rw [if_neg h]
    simp

theorem isSubmodulePath_iff (fn : String) :
    isSubmodulePath fn = true ↔
      jsBasename fn ≠ [] ∧ (jsBasename fn).contains '.' = false := by
  unfold isSubmodulePath
  rw [Bool.and_eq_true, Bool.not_eq_true', Bool.not_eq_true']
  constructor
  · rintro ⟨h1, h2⟩
    exact ⟨by simpa using h1, h2⟩
  · rintro ⟨h1, h2⟩
    exact ⟨by simpa using h1, h2⟩

theorem changedFold_mem (files : List String) (fn : String) :
    ∀ acc : List String × List String,
    (fn ∈ (files.foldl changedFoldStep acc).1 ↔ fn ∈ acc.1 ∨ fn ∈ files) ∧
    (fn ∈ (files.foldl changedFoldStep acc).2 ↔
      fn ∈ acc.2 ∨ (fn ∈ files ∧ isSubmodulePath fn = true)) := by
  induction files with
  | nil =>
    intro acc
    simp
  | cons f fs ih =>
    intro acc
    rw [List.foldl_cons]
    by_cases hsub : isSubmodulePath f = true
    · have hstep : changedFoldStep acc f = (jsSetAdd acc.1 f, jsSetAdd acc.2 f) := by
        unfold changedFoldStep
        rw [if_pos hsub]
      rw [hstep]
      have hrec := ih (jsSetAdd acc.1 f, jsSetAdd acc.2 f)
      have hfn : fn = f → isSubmodulePath fn = true := fun he => he ▸ hsub
      constructor
      · rw [hrec.1, jsSetAdd_mem]
        simp only [List.mem_cons]
        tauto
      · rw [hrec.2, jsSetAdd_mem]
        simp only [List.mem_cons]
        tauto
    · have hstep : changedFoldStep acc f = (jsSetAdd acc.1 f, acc.2) := by
        unfold changedFoldStep
        rw [if_neg hsub]
      rw [hstep]
      have hrec := ih (jsSetAdd acc.1 f, acc.2)
      have hfn : fn = f → ¬isSubmodulePath fn = true := fun he => he ▸ hsub
      constructor
      · rw [hrec.1, jsSetAdd_mem]
        simp only [List.mem_cons]
        tauto
      · rw [hrec.2]
        simp only [List.mem_cons]
        constructor
        · rintro (h | ⟨hmem, hs⟩)
          · exact Or.inl h
          · exact Or.inr ⟨Or.inr hmem, hs⟩
        · rintro (h | ⟨hor, hs⟩)
          · exact Or.inl h
          · rcases hor with rfl | hmem
            · exact absurd hs (hfn rfl)
            · exact Or.inr ⟨hmem, hs⟩

/-- C10 (amended): `getChangedSubmodules` classifies a changed file as a
changed submodule iff it is a changed file whose basename is **non-empty**
and contains no '.' character (the truthiness test on the basename excludes
paths with an empty final segment), and `changed_submodules` is always a
subset of `changed_files`. -/
theorem getChangedSubmodules_classification (env : ApiEnv) (pr : PR)
    (files : List ChangedFile)
    (h1 : env.pulls_get = Except.ok pr) (h2 : env.pulls_listFiles = Except.ok files) :
    ∃ r : ChangedSubsResult,
      runM (getChangedSubmodules env) =
        (Except.ok r, [ApiCall.pullsGet, ApiCall.pullsListFiles]) ∧
      changedSubsConcl r files := by
  refine ⟨⟨((files.map (fun f => f.filename)).foldl changedFoldStep ([], [])).2,
           ((files.map (fun f => f.filename)).foldl changedFoldStep ([], [])).1,
           pr.base_ref, pr.head_ref⟩, ?_, ?_, ?_, ?_⟩
  · unfold runM getChangedSubmodules
    simp [h1, h2]
  · intro fn
    have hm := changedFold_mem (files.map (fun f => f.filename)) fn ([], [])
    show fn ∈ ((files.map (fun f => f.filename)).foldl changedFoldStep ([], [])).2 ↔ _
    rw [hm.2]
    simp only [List.not_mem_nil, false_or]
    constructor
    · rintro ⟨hmem, hs⟩
      have hb := (isSubmodulePath_iff fn).mp hs
      exact ⟨(hm.1).mpr (Or.inr hmem), hb.1, hb.2⟩
    · rintro ⟨hcf, hb1, hb2⟩
      rcases (hm.1).mp hcf with hfalse | hmem
      · simp at hfalse
      · exact ⟨hmem, (isSubmodulePath_iff fn).mpr ⟨hb1, hb2⟩⟩
  · intro fn
    have hm := changedFold_mem (files.map (fun f => f.filename)) fn ([], [])
    show fn ∈ ((files.map (fun f => f.filename)).foldl changedFoldStep ([], [])).1 ↔ _
    rw [hm.1]
    simp
  · intro fn hfn
    have hm := changedFold_mem (files.map (fun f => f.filename)) fn ([], [])
    rw [hm.2] at hfn
    rw [hm.1]
    rcases hfn with hfalse | ⟨hmem, _⟩
    · simp at hfalse
    · exact Or.inr hmem

theorem getChangedSubmodules_classification_witness :
    (changedSubsEnv.pulls_get = Except.ok witnessPR ∧
     changedSubsEnv.pulls_listFiles =
       Except.ok [⟨"sub/", "modified"⟩, ⟨"Makefile", "modified"⟩]) ∧
    ∃ r : ChangedSubsResult,
      runM (getChangedSubmodules changedSubsEnv) =
        (Except.ok r, [ApiCall.pullsGet, ApiCall.pullsListFiles]) ∧
      changedSubsConcl r [⟨"sub/", "modified"⟩, ⟨"Makefile", "modified"⟩] :=
  ⟨⟨rfl, rfl⟩,
   getChangedSubmodules_classification changedSubsEnv witnessPR
     [⟨"sub/", "modified"⟩, ⟨"Makefile", "modified"⟩] rfl rfl⟩

/-- C10 counterexample: the changed file `"sub/"` is extensionless — its
basename (the final segment of `"sub/".split("/")`) is the empty string,
which contains no '.' — yet `getChangedSubmodules` does not classify it as a
changed submodule, because the truthiness guard rejects the empty basename:
the claimed iff "changed submodule ⟺ basename contains no '.'" fails. -/
theorem getChangedSubmodules_empty_basename_counterexample :
    (jsBasename "sub/").contains '.' = false ∧
    "sub/" ∈ ["sub/", "Makefile"] ∧
    runM (getChangedSubmodules changedSubsEnv) =
      (Except.ok ⟨["Makefile"], ["sub/", "Makefile"], "main", "feature"⟩,
       [ApiCall.pullsGet, ApiCall.pullsListFiles]) := by
  refine ⟨by decide, by decide, ?_⟩
  rfl

/- ---------------------------------------------------------------- -/
/- C9: getConflictedFiles throws iff a conflict escapes the submodule
   paths; non-false mergeable short-circuits -/
/- ---------------------------------------------------------------- -/

theorem getChangedFilesAt_run (env : ApiEnv) (mb r : String) (t : List ApiCall) :
    getChangedFilesAt env mb r t =
      (Except.ok (match env.repos_compareCommits mb r with
        | Except.ok c => jsSetOf c.files
        | Except.error _ => []), t ++ [ApiCall.reposCompareCommits mb r]) := by
  unfold getChangedFilesAt tryCatchM
  cases hc : env.repos_compareCommits mb r <;> simp [hc]

theorem getConflictedFiles_partition (env : ApiEnv) (subs : List String) (pr : PR)
    (h : env.pulls_get = Except.ok pr) :
    ∃ tr : List ApiCall,
      runM (getConflictedFiles env subs) =
        (if ((detectConflicts env pr).filter (fun f => !fileInSubmodulePaths subs f)).length > 0
         then
           (Except.error ("Workflow stopped because of base conflicts in non-submodule files:\n"
              ++ String.intercalate "\n"
                  ((detectConflicts env pr).filter (fun f => !fileInSubmodulePaths subs f))), tr)
         else
           (Except.ok
              ⟨(detectConflicts env pr).filter (fun f => fileInSubmodulePaths subs f)
                 ++ (detectConflicts env pr).filter (fun f => !fileInSubmodulePaths subs f),
               (detectConflicts env pr).filter (fun f => fileInSubmodulePaths subs f),
               (detectConflicts env pr).filter (fun f => !fileInSubmodulePaths subs f),
               pr.mergeable⟩, tr)) := by
  by_cases hm : pr.mergeable = some false
  · cases hcomp : env.repos_compareCommits pr.base_ref pr.head_ref with
    | error e =>
      refine ⟨[ApiCall.pullsGet, ApiCall.reposCompareCommits pr.base_ref pr.head_ref], ?_⟩
      unfold runM getConflictedFiles
      simp [h, hm, tryCatchM, hcomp, detectConflicts]
    | ok comp =>
      cases hdiv : comp.status == "diverged" with
      | false =>
        have hdiv' : comp.status ≠ "diverged" := by simpa using hdiv
        refine ⟨[ApiCall.pullsGet, ApiCall.reposCompareCommits pr.base_ref pr.head_ref], ?_⟩
        unfold runM getConflictedFiles
        simp [h, hm, tryCatchM, hcomp, hdiv', detectConflicts]
      | true =>
        have hdiv' : comp.status = "diverged" := by simpa using hdiv
        refine ⟨[ApiCall.pullsGet, ApiCall.reposCompareCommits pr.base_ref pr.head_ref,
                 ApiCall.reposCompareCommits comp.merge_base_sha pr.base_ref,
                 ApiCall.reposCompareCommits comp.merge_base_sha pr.head_ref], ?_⟩
        unfold runM getConflictedFiles
        simp [h, hm, tryCatchM, hcomp, hdiv', detectConflicts, getChangedFilesAt_run]
        split <;> rfl
  · refine ⟨[ApiCall.pullsGet], ?_⟩
    unfold runM getConflictedFiles
    simp [h, hm, detectConflicts]

/-- C9: `getConflictedFiles` throws an error exactly when some detected
potentially-conflicting file lies outside every supplied submodule path; and
whenever the PR's `mergeable` flag is anything other than exactly `false`
(`true` or `null`), it performs no conflict analysis (the trace is the single
`pulls.get` read), never throws, and returns empty conflict lists with the
`mergeable` flag passed through unchanged. -/
theorem getConflictedFiles_spec (env : ApiEnv) (subs : List String) (pr : PR)
    (h : env.pulls_get = Except.ok pr) :
    conflictInspectorConcl env subs pr := by
  obtain ⟨tr, htr⟩ := getConflictedFiles_partition env subs pr h
  constructor
  · by_cases hn :
      ((detectConflicts env pr).filter (fun f => !fileInSubmodulePaths subs f)).length > 0
    · rw [if_pos hn] at htr
      constructor
      · intro _
        have hne : (detectConflicts env pr).filter (fun f => !fileInSubmodulePaths subs f) ≠ [] := by
          intro he
          rw [he] at hn
          simp at hn
        obtain ⟨f, hf⟩ := List.exists_mem_of_ne_nil _ hne
        have hmem := List.mem_filter.mp hf
        exact ⟨f, hmem.1, by simpa using hmem.2⟩
      · intro _
        exact ⟨_, by rw [htr]⟩
    · rw [if_neg hn] at htr
      constructor
      · rintro ⟨e, he⟩
        rw [htr] at he
        simp at he
      · rintro ⟨f, hf, hns⟩
        exfalso
        apply hn
        have hmem : f ∈ (detectConflicts env pr).filter (fun f => !fileInSubmodulePaths subs f) :=
          List.mem_filter.mpr ⟨hf, by simp [hns]⟩
        exact List.length_pos.mpr (List.ne_nil_of_mem hmem)
  · intro hm'
    unfold runM getConflictedFiles
    simp [h, hm']

theorem getConflictedFiles_spec_witness :
    conflictEnv.pulls_get = Except.ok { witnessPR with mergeable := some false } ∧
    conflictInspectorConcl conflictEnv [] { witnessPR with mergeable := some false } :=
  ⟨rfl, getConflictedFiles_spec conflictEnv [] { witnessPR with mergeable := some false } rfl⟩

/- ---------------------------------------------------------------- -/
/- C3: the local pipeline never restores the process working directory -/
/- ---------------------------------------------------------------- -/

theorem GitM_bind_apply {α β : Type} (x : GitM α) (f : α → GitM β) (s : PipeState) :
    (x >>= f) s =
      match x s with
      | GitRes.ok a s' => f a s'
      | GitRes.err e s' => GitRes.err e s'
      | GitRes.exited c s' => GitRes.exited c s' := rfl

theorem presCwd_pure {α : Type} (a : α) : PresCwd (pure a : GitM α) := fun _ => rfl

theorem presCwd_exitG {α : Type} (code : Nat) : PresCwd (exitG code : GitM α) := fun _ => rfl

theorem presCwd_runC (env : GitEnv) (allowFail : Bool) (cmd : String) :
    PresCwd (runC env allowFail cmd) := by
  intro s
  unfold runC
  cases env.exec s.calls cmd with
  | ok out => rfl
  | error e => cases allowFail <;> rfl

theorem presCwd_bind {α β : Type} {x : GitM α} {f : α → GitM β}
    (hx : PresCwd x) (hf : ∀ a, PresCwd (f a)) : PresCwd (x >>= f) := by
  intro s
  rw [GitM_bind_apply]
  cases hxs : x s with
  | ok a s' =>
    have h1 := hx s
    rw [hxs] at h1
    simp only [cwdOf] at h1
    rw [hf a s', h1]
  | err e s' =>
    have h1 := hx s
    rw [hxs] at h1
    simpa [cwdOf] using h1
  | exited c s' =>
    have h1 := hx s
    rw [hxs] at h1
    simpa [cwdOf] using h1

theorem presCwd_ite {α : Type} (c : Prop) [Decidable c] {x y : GitM α}
    (hx : PresCwd x) (hy : PresCwd y) : PresCwd (if c then x else y) := by
  by_cases h : c
  · rw [if_pos h]; exact hx
  · rw [if_neg h]; exact hy

theorem presCwd_gitAddAll (env : GitEnv) (l : List String) : PresCwd (gitAddAll env l) := by
  induction l with
  | nil => exact presCwd_pure ()
  | cons f fs ih =>
    exact presCwd_bind (presCwd_runC env false _) (fun _ => ih)

theorem presCwd_pipelineBody (env : GitEnv) (remote : String) (prNumber : Int)
    (tgtBranch prBranch : String) (isBase : Bool) (submodules : List String) :
    PresCwd (pipelineBody env remote prNumber tgtBranch prBranch isBase submodules) := by
  unfold pipelineBody
  repeat'
    first
    | apply presCwd_bind
    | apply presCwd_ite
    | apply presCwd_runC
    | exact presCwd_exitG 1
    | apply presCwd_gitAddAll
    | apply presCwd_pure
    | intro _

theorem matchGitRes_id {α : Type} (r : GitRes α) :
    (match r with
     | GitRes.ok m s => GitRes.ok m s
     | GitRes.err e s => GitRes.err e s
     | GitRes.exited c s => GitRes.exited c s) = r := by
  cases r <;> rfl

/-- C3: for every environment and starting state, once
`localGitMergePipeline` has entered a non-empty `submodulePath` via
`process.chdir`, the process working directory on exit is still
`submodulePath` — whether the pipeline returns, throws, or exits — because
the restoring block after the try/catch is unreachable.  The claim that the
original directory is restored on every exit path is therefore false of the
code (the spec itself flags this as a latent bug). -/
theorem localGitMergePipeline_cwd_not_restored (env : GitEnv) (remote : String)
    (prNumber : Int) (tgtBranch prBranch : String) (isBase : Bool)
    (submodules : List String) (submodulePath : String) (s0 : PipeState)
    (hpath : submodulePath ≠ "") (hch : env.chdirOk submodulePath = true) :
    cwdOf (localGitMergePipeline env remote prNumber tgtBranch prBranch isBase
      submodules submodulePath s0) = submodulePath := by
  have hp := presCwd_pipelineBody env remote prNumber tgtBranch prBranch isBase submodules
  unfold localGitMergePipeline
  simp only [ne_eq, hpath, not_false_eq_true, ite_true, hch]
  have h1 := hp { cwd := submodulePath, calls := s0.calls, cmds := s0.cmds }
  cases hres : pipelineBody env remote prNumber tgtBranch prBranch isBase submodules
      { cwd := submodulePath, calls := s0.calls, cmds := s0.cmds } with
  | ok msg s2 =>
    rw [hres] at h1
    simpa [cwdOf] using h1
  | err e s2 =>
    rw [hres] at h1
    simpa [cwdOf] using h1
  | exited c s2 =>
    rw [hres] at h1
    simpa [cwdOf] using h1

theorem localGitMergePipeline_cwd_not_restored_witness :
    (("vendor/libfoo" : String) ≠ "" ∧ happyGitEnv.chdirOk "vendor/libfoo" = true) ∧
    cwdOf (localGitMergePipeline happyGitEnv "origin" 7 "main" "feature" false []
      "vendor/libfoo" ⟨"/work", 0, []⟩) = "vendor/libfoo" :=
  ⟨⟨by decide, rfl⟩,
   localGitMergePipeline_cwd_not_restored happyGitEnv "origin" 7 "main" "feature" false []
     "vendor/libfoo" ⟨"/work", 0, []⟩ (by decide) rfl⟩

/-- C8 counterexample: the URL `https://github.com/acme/x.github.io.git` has
the claimed form with org `acme` and name `x.github.io`, so the claim demands
`some "x.github.io"` (the segment after the org with the `.git` suffix
stripped); but `replace(".git", "")` removes the **first** occurrence of
`.git`, which here lies inside the repo name, and the code returns
`some "xhub.io.git"` instead — the claim as universally stated is false. -/
theorem deriveRepoNameFromUrl_https_counterexample :
    deriveRepoNameFromUrl "https://github.com/acme/x.github.io.git" = some "xhub.io.git" ∧
    deriveRepoNameFromUrl "https://github.com/acme/x.github.io.git" ≠ some "x.github.io" := by
  constructor
  · decide
  · decide
